import Mathlib

/-!
# Verification of the Sales-prediction-app specification

Two bodies of definitions are developed here.

1. The repository's only source file (`app.py`, a resume-screening
   Streamlit app) is embedded shallowly: `cleanText`, `calculateSimilarity`
   and the sorted result list, over `List Char` / `List ℚ`.

2. The specification describes an ARIMA forecasting core (TimeSeries,
   Differencer, ParameterEstimator, Forecaster, ForecastPipeline) whose
   code is not present in the repository sources.  Those components are
   modelled from the specification text itself; each such definition's
   doc comment starts with `Modelled from the spec:`.

Numbers are modelled as exact rationals `ℚ`; confidence bounds, which the
spec defines with a square root, live in `ℝ`.
-/

namespace SalesApp

/-- Modelled from the spec: the error taxonomy of §7 (the ARIMA core is
absent from the sources). -/
inductive Err where
  | validation
  | insufficientData
  | singular
  | nonConvergence
  | invalidHorizon
  deriving DecidableEq, Repr

/-- Modelled from the spec: the TimeSeries container of §3 (absent from the
sources): index-aligned timestamps and values. -/
structure TimeSeries where
  timestamps : List ℚ
  values : List ℚ
  deriving DecidableEq, Repr

/-- Strictly increasing (no duplicates), stated structurally so that it is
decidable by evaluation. -/
def strictIncr : List ℚ → Prop
  | [] => True
  | [_] => True
  | a :: b :: r => a < b ∧ strictIncr (b :: r)

def decStrictIncr : (l : List ℚ) → Decidable (strictIncr l)
  | [] => isTrue trivial
  | [_] => isTrue trivial
  | a :: b :: r =>
    have : Decidable (strictIncr (b :: r)) := decStrictIncr (b :: r)
    inferInstanceAs (Decidable (a < b ∧ strictIncr (b :: r)))

instance : ∀ l : List ℚ, Decidable (strictIncr l) := decStrictIncr

/-- Modelled from the spec: §4.1 validity — at least 2 points, strictly
increasing timestamps, aligned lengths.  (Finiteness of values is implicit
in `ℚ`.) -/
def validTS (ts : TimeSeries) : Prop :=
  ts.timestamps.length = ts.values.length ∧
  2 ≤ ts.values.length ∧
  strictIncr ts.timestamps

instance (ts : TimeSeries) : Decidable (validTS ts) :=
  inferInstanceAs (Decidable (ts.timestamps.length = ts.values.length ∧
    2 ≤ ts.values.length ∧ strictIncr ts.timestamps))

instance {ε α : Type} [DecidableEq ε] [DecidableEq α] : DecidableEq (Except ε α)
  | .ok a, .ok b =>
    if h : a = b then isTrue (by rw [h]) else isFalse (fun hh => h (by cases hh; rfl))
  | .error e, .error f =>
    if h : e = f then isTrue (by rw [h]) else isFalse (fun hh => h (by cases hh; rfl))
  | .ok _, .error _ => isFalse (fun hh => by cases hh)
  | .error _, .ok _ => isFalse (fun hh => by cases hh)

/-- Modelled from the spec: the ModelOrder triple of §3. -/
structure ModelOrder where
  p : ℕ
  d : ℕ
  q : ℕ
  deriving DecidableEq, Repr

/-! ## Differencer (§4.2), modelled from the spec -/

/-- Modelled from the spec: one pass of first-order differencing — value at
index i (i ≥ 1) becomes `value[i] − value[i−1]` and the first element is
discarded. -/
def diffOnce : List ℚ → List ℚ
  | [] => []
  | [_] => []
  | a :: b :: r => (b - a) :: diffOnce (b :: r)

/-- Modelled from the spec: first-order differencing applied `d` times
(the pure core of `difference`, with no length guard). -/
def diffK (s : List ℚ) : ℕ → List ℚ
  | 0 => s
  | d + 1 => diffK (diffOnce s) d

/-- Modelled from the spec: `difference(series, d)` — applies first-order
differencing `d` times; fails with `InsufficientDataError` if
`d ≥ len(series)`. -/
def difference (s : List ℚ) (d : ℕ) : Except Err (List ℚ) :=
  if s.length ≤ d then .error .insufficientData else .ok (diffK s d)

/-- Modelled from the spec: integrate one differencing level — prepend the
anchor value for this level and cumulative-sum the differenced values. -/
def intOnce (a : ℚ) : List ℚ → List ℚ
  | [] => [a]
  | x :: r => a :: intOnce (a + x) r

/-- Modelled from the spec: `integrate(differencedForecast, anchors, d)` —
cumulative-sums back up through the levels, one anchor value per
differencing level (`anchors.length` plays the role of `d`).  The output
carries the `d` anchor-level values at its front; the pipeline drops them. -/
def integrate (w : List ℚ) : List ℚ → List ℚ
  | [] => w
  | a :: rest => intOnce a (integrate w rest)

/-- Modelled from the spec: the anchors taken from the tail of the original
series — one anchor per differencing level, the last value of each
successively differenced series. -/
def tailAnchors (s : List ℚ) : ℕ → List ℚ
  | 0 => []
  | d + 1 => s.getLastD 0 :: tailAnchors (diffOnce s) d

/-- The analogous anchors taken from the head of the original series — one
per differencing level, the first value of each successively differenced
series.  (Introduced for the corrected round-trip law.) -/
def headAnchors (s : List ℚ) : ℕ → List ℚ
  | 0 => []
  | d + 1 => s.headD 0 :: headAnchors (diffOnce s) d

/-! ### Differencer lemmas -/

theorem diffOnce_length (s : List ℚ) : (diffOnce s).length = s.length - 1 := by
  induction s with
  | nil => rfl
  | cons a r ih =>
    cases r with
    | nil => rfl
    | cons b t => simpa [diffOnce] using ih

theorem diffK_length (s : List ℚ) (d : ℕ) : (diffK s d).length = s.length - d := by
  induction d generalizing s with
  | zero => rfl
  | succ d ih =>
    rw [diffK, ih, diffOnce_length]
    omega

theorem diffK_succ_comm (s : List ℚ) (d : ℕ) :
    diffK s (d + 1) = diffOnce (diffK s d) := by
  induction d generalizing s with
  | zero => rfl
  | succ d ih => rw [diffK, ih, diffK]

theorem diffOnce_getD (s : List ℚ) (i : ℕ) (h : i + 1 < s.length) :
    (diffOnce s).getD i 0 = s.getD (i + 1) 0 - s.getD i 0 := by
  induction s generalizing i with
  | nil => simp at h
  | cons a r ih =>
    cases r with
    | nil => simp at h
    | cons b t =>
      cases i with
      | zero => rfl
      | succ i =>
        have := ih (i := i) (by simpa using h)
        simpa [diffOnce] using this

/-- Prepending the first value and cumulative-summing undoes one
differencing pass. -/
theorem intOnce_diffOnce (w : List ℚ) (h : w ≠ []) :
    intOnce (w.headD 0) (diffOnce w) = w := by
  induction w with
  | nil => exact absurd rfl h
  | cons a r ih =>
    cases r with
    | nil => rfl
    | cons b t =>
      have hb := ih (by simp)
      simp only [diffOnce, intOnce, List.headD]
      simp only [List.headD] at hb
      rw [add_sub_cancel]
      exact congrArg (a :: ·) hb

/-- The head-anchored round trip: integrating the d-times-differenced
series with the per-level head anchors reproduces the series, for
`d ≤ len`. -/
theorem integrate_diffK_headAnchors (d : ℕ) (s : List ℚ) (h : d ≤ s.length) :
    integrate (diffK s d) (headAnchors s d) = s := by
  induction d generalizing s with
  | zero => rfl
  | succ d ih =>
    have hne : s ≠ [] := by
      cases s with
      | nil => simp at h
      | cons a r => simp
    have hlen : d ≤ (diffOnce s).length := by
      rw [diffOnce_length]; omega
    calc integrate (diffK s (d + 1)) (headAnchors s (d + 1))
        = intOnce (s.headD 0) (integrate (diffK (diffOnce s) d) (headAnchors (diffOnce s) d)) := rfl
      _ = intOnce (s.headD 0) (diffOnce s) := by rw [ih (diffOnce s) hlen]
      _ = s := intOnce_diffOnce s hne

/-! ### Claims C1 and C2 -/

/-- C1 (counterexample): the round-trip law as stated — with the anchors
taken from the tail of the series — fails on the valid series `[0, 1]`
with `d = 1`: integrating gives `[1, 2] ≠ [0, 1]`.  Moreover at
`d = len(series)` the composite is an `InsufficientDataError`, not the
series. -/
theorem roundTrip_tailAnchors_false :
    validTS ⟨[0, 1], [0, 1]⟩ ∧
    (1 : ℕ) ≤ ([0, 1] : List ℚ).length ∧
    (difference [0, 1] 1).map (fun w => integrate w (tailAnchors [0, 1] 1)) =
      .ok [1, 2] ∧
    ([1, 2] : List ℚ) ≠ [0, 1] ∧
    (difference [0, 1] 2).map (fun w => integrate w (tailAnchors [0, 1] 2)) =
      .error .insufficientData := by
  refine ⟨by decide, by decide, ?_, by decide, ?_⟩
  · norm_num [difference, diffK, diffOnce, tailAnchors, integrate, intOnce,
      Except.map, List.getLastD]
  · norm_num [difference, Except.map]

/-- C1 (amended): for every valid TimeSeries and every `d < len(series)`,
`difference` succeeds and integrating the d-times-differenced series with
the per-level *head* anchors — the first value of each differencing level —
reproduces the original series exactly. -/
theorem roundTrip_headAnchors (ts : TimeSeries) (d : ℕ)
    (hv : validTS ts) (hd : d < ts.values.length) :
    difference ts.values d = .ok (diffK ts.values d) ∧
    integrate (diffK ts.values d) (headAnchors ts.values d) = ts.values := by
  refine ⟨?_, integrate_diffK_headAnchors d ts.values (le_of_lt hd)⟩
  unfold difference
  rw [if_neg (by omega)]

/-- C1 witness: the amended round trip at the valid series `[3, 5, 9]`
with `d = 2`. -/
theorem roundTrip_headAnchors_witness :
    validTS ⟨[0, 1, 2], [3, 5, 9]⟩ ∧
    difference [3, 5, 9] 2 = .ok (diffK [3, 5, 9] 2) ∧
    integrate (diffK [3, 5, 9] 2) (headAnchors [3, 5, 9] 2) = [3, 5, 9] :=
  ⟨by decide, roundTrip_headAnchors ⟨[0, 1, 2], [3, 5, 9]⟩ 2 (by decide) (by decide)⟩

/-- C2: `difference(series, d)` applies first-order differencing `d` times
(each pass replaces `value[i]` with `value[i] − value[i−1]` and drops the
first element), yields a working series of length `len(series) − d`, and
fails with `InsufficientDataError` exactly when `d ≥ len(series)`. -/
theorem difference_spec (s : List ℚ) (d : ℕ) :
    (d < s.length → difference s d = .ok (diffK s d)) ∧
    diffK s (d + 1) = diffOnce (diffK s d) ∧
    (diffK s d).length = s.length - d ∧
    (∀ i, i + 1 < s.length → (diffOnce s).getD i 0 = s.getD (i + 1) 0 - s.getD i 0) ∧
    (s.length ≤ d → difference s d = .error .insufficientData) := by
  refine ⟨?_, diffK_succ_comm s d, diffK_length s d, diffOnce_getD s, ?_⟩
  · intro h
    unfold difference
    rw [if_neg (by omega)]
  · intro h
    unfold difference
    rw [if_pos h]

/-- C2 witness: `difference [1, 4, 9, 16] 2 = ok [2, 2]`, the second pass
differences the first, and `difference [1, 4] 7` is an
`InsufficientDataError`. -/
theorem difference_spec_witness :
    difference [1, 4, 9, 16] 2 = .ok [2, 2] ∧
    (diffOnce [1, 4, 9, 16]).getD 1 0 = (9 : ℚ) - 4 ∧
    difference [1, 4] 7 = .error .insufficientData := by
  refine ⟨?_, ?_, (difference_spec [1, 4] 7).2.2.2.2 (by decide)⟩
  · rw [(difference_spec [1, 4, 9, 16] 2).1 (by decide)]
    norm_num [diffK, diffOnce]
  · rw [(difference_spec [1, 4, 9, 16] 2).2.2.2.1 1 (by decide)]
    norm_num [List.getD]

/-! ## ParameterEstimator (§4.3), modelled from the spec -/

/-- Modelled from the spec: the FittedModel record of §3 (the `d` of
`order` is the pipeline's concern; the estimator records the orders it
fitted). -/
structure FittedModel where
  order : ModelOrder
  arCoefficients : List ℚ
  maCoefficients : List ℚ
  intercept : ℚ
  residuals : List ℚ
  residualVariance : ℚ
  deriving DecidableEq, Repr

/-- Modelled from the spec: entry `j` of row `t` of the lagged design
matrix of the q = 0 path — row t (for t = p .. n−1 of the working series)
is `[1, y_{t−1}, …, y_{t−p}]`. -/
def designEntry (w : List ℚ) (p t j : ℕ) : ℚ :=
  if j = 0 then 1 else w.getD (p + t - j) 0

/-- Modelled from the spec: the lagged design matrix itself. -/
def designMatrix (w : List ℚ) (p : ℕ) :
    Matrix (Fin (w.length - p)) (Fin (p + 1)) ℚ :=
  Matrix.of fun t j => designEntry w p t.val j.val

/-- Modelled from the spec: the regression targets `y_t`, t = p .. n−1. -/
def targetVec (w : List ℚ) (p : ℕ) : Fin (w.length - p) → ℚ :=
  fun t => w.getD (p + t.val) 0

/-- The Gram matrix XᵀX of the normal equations, written with list sums so
that it evaluates on concrete inputs. -/
def normalA (w : List ℚ) (p : ℕ) : Matrix (Fin (p + 1)) (Fin (p + 1)) ℚ :=
  Matrix.of fun i j =>
    ((List.range (w.length - p)).map fun t =>
      designEntry w p t i.val * designEntry w p t j.val).sum

/-- The right-hand side Xᵀy of the normal equations, written with list
sums. -/
def normalB (w : List ℚ) (p : ℕ) : Fin (p + 1) → ℚ := fun i =>
  ((List.range (w.length - p)).map fun t =>
    designEntry w p t i.val * w.getD (p + t) 0).sum

/-- Bridge between list-range sums and finset-range sums. -/
theorem listRangeSum_eq (n : ℕ) (f : ℕ → ℚ) :
    ((List.range n).map f).sum = ∑ i ∈ Finset.range n, f i := by
  induction n with
  | zero => simp
  | succ n ih => simp [List.range_succ, Finset.sum_range_succ, ih]

/-- `normalA` is indeed `Xᵀ * X` for the lagged design matrix. -/
theorem normalA_eq_gram (w : List ℚ) (p : ℕ) :
    normalA w p = (designMatrix w p).transpose * designMatrix w p := by
  funext i j
  simp only [normalA, designMatrix, Matrix.mul_apply, Matrix.transpose_apply,
    Matrix.of_apply, listRangeSum_eq]
  exact (Fin.sum_univ_eq_sum_range
    (fun t => designEntry w p t i.val * designEntry w p t j.val) (w.length - p)).symm

/-- `normalB` is indeed `Xᵀ • y` for the lagged design matrix and targets. -/
theorem normalB_eq_gram (w : List ℚ) (p : ℕ) :
    normalB w p = (designMatrix w p).transpose.mulVec (targetVec w p) := by
  funext i
  simp only [normalB, designMatrix, targetVec, Matrix.mulVec, Matrix.dotProduct,
    Matrix.transpose_apply, Matrix.of_apply, listRangeSum_eq]
  exact (Fin.sum_univ_eq_sum_range
    (fun t => designEntry w p t i.val * w.getD (p + t) 0) (w.length - p)).symm

/-- Modelled from the spec: the closed-form ordinary-least-squares solution
of the normal equations on the lagged design matrix; fails with
`SingularModelError` when the normal equations are singular. -/
def olsCoeffVec (w : List ℚ) (p : ℕ) : Except Err (Fin (p + 1) → ℚ) :=
  if (normalA w p).det = 0 then .error .singular
  else .ok ((normalA w p).det⁻¹ • Matrix.cramer (normalA w p) (normalB w p))

/-- Modelled from the spec: the one-step residual recursion of §4.3 — zero
during the burn-in `max(p, q)`, then
`e_t = y_t − c − Σ_i φ_i·y_{t−i} − Σ_j θ_j·e_{t−j}`. -/
def residList (w : List ℚ) (c : ℚ) (ar ma : List ℚ) : List ℚ :=
  (List.range w.length).foldl
    (fun es t =>
      es ++ [if t < max ar.length ma.length then 0 else
        w.getD t 0 - c -
        ((List.range ar.length).map
          (fun i => ar.getD i 0 * w.getD (t - 1 - i) 0)).sum -
        ((List.range ma.length).map
          (fun j => ma.getD j 0 * es.getD (t - 1 - j) 0)).sum])
    []

/-- Sum of squares of a list. -/
def sumSq (l : List ℚ) : ℚ := (l.map (fun x => x * x)).sum

/-- Modelled from the spec: `residualVariance = (Σ e_t²) / (n − max(p,q))`. -/
def residVarOf (w : List ℚ) (c : ℚ) (ar ma : List ℚ) : ℚ :=
  sumSq ((residList w c ar ma).drop (max ar.length ma.length)) /
    ((w.length - max ar.length ma.length : ℕ) : ℚ)

/-- Modelled from the spec: package estimated parameters as a FittedModel. -/
def modelOfCoeffs (w : List ℚ) (p q : ℕ) (c : ℚ) (ar ma : List ℚ) : FittedModel :=
  { order := ⟨p, 0, q⟩
    arCoefficients := ar
    maCoefficients := ma
    intercept := c
    residuals := residList w c ar ma
    residualVariance := residVarOf w c ar ma }

/-- Modelled from the spec: the q = 0 estimation path — the direct
closed-form linear solve on the lagged design matrix (no iteration). -/
def olsLagged (w : List ℚ) (p : ℕ) : Except Err FittedModel :=
  (olsCoeffVec w p).map fun β =>
    modelOfCoeffs w p 0 (β 0) (List.ofFn fun i : Fin p => β i.succ) []

/-- Modelled from the spec: the conditional-least-squares objective
`Σ e_t²` on a parameter vector `v = c :: φ ++ θ`. -/
def paramObjective (w : List ℚ) (p : ℕ) (v : List ℚ) : ℚ :=
  sumSq ((residList w (v.getD 0 0) ((v.drop 1).take p) (v.drop (1 + p))).drop
    (max ((v.drop 1).take p).length (v.drop (1 + p)).length))

/-- Perturb coordinate `k` of a parameter vector by `δ`. -/
def nudge (v : List ℚ) (k : ℕ) (δ : ℚ) : List ℚ :=
  v.mapIdx fun i x => if i = k then x + δ else x

/-- Modelled from the spec: one sweep of coordinate descent — for each
coordinate try moving by ±δ, keeping whichever candidate lowers the
objective. -/
def sweep (w : List ℚ) (p : ℕ) (δ : ℚ) (v : List ℚ) : List ℚ :=
  (List.range v.length).foldl
    (fun cur k =>
      let cand₁ := nudge cur k δ
      let cand₂ := nudge cur k (-δ)
      let best₁ := if paramObjective w p cand₁ < paramObjective w p cur then cand₁ else cur
      if paramObjective w p cand₂ < paramObjective w p best₁ then cand₂ else best₁)
    v

/-- Modelled from the spec: the iterative loop with its hard iteration cap
and relative tolerance of 1e−6 on the residual sum of squares;
`NonConvergenceError` when the cap is exhausted. -/
def clsLoop (w : List ℚ) (p : ℕ) (δ : ℚ) : ℕ → List ℚ → Except Err (List ℚ)
  | 0, _ => .error .nonConvergence
  | fuel + 1, v =>
    let v' := sweep w p δ v
    if 1000000 * (paramObjective w p v - paramObjective w p v') ≤ paramObjective w p v
    then .ok v'
    else clsLoop w p (δ / 2) fuel v'

/-- Modelled from the spec: the q ≥ 1 estimation path — iterative nonlinear
least squares from a zero initial guess with iteration cap 50, failing with
`SingularModelError` on a degenerate (constant) working series. -/
def iterCLS (w : List ℚ) (p q : ℕ) : Except Err FittedModel :=
  if w.all (fun x => x = w.headD 0) then .error .singular
  else
    (clsLoop w p 1 50 (List.replicate (1 + p + q) 0)).map fun v =>
      modelOfCoeffs w p q (v.getD 0 0) ((v.drop 1).take p) (v.drop (1 + p))

/-- Modelled from the spec: the ParameterEstimator — the q = 0 path is
special-cased to the direct linear solve, all other orders go through the
iterative optimizer. -/
def estimateParams (w : List ℚ) (p q : ℕ) : Except Err FittedModel :=
  if q = 0 then olsLagged w p else iterCLS w p q

/-! ## Forecaster (§4.4), modelled from the spec -/

/-- Modelled from the spec: recursive h-step forecasting on the differenced
scale — past lags come from the working series, future lags from previously
produced forecasts, and MA residuals beyond the observed window are zero. -/
def forecastDiff (m : FittedModel) (w : List ℚ) (h : ℕ) : List ℚ :=
  ((List.range h).foldl
    (fun (st : List ℚ × List ℚ) _ =>
      let pred := m.intercept +
        ((List.range m.arCoefficients.length).map
          (fun i => m.arCoefficients.getD i 0 * st.1.getD (st.1.length - 1 - i) 0)).sum +
        ((List.range m.maCoefficients.length).map
          (fun j => m.maCoefficients.getD j 0 * st.2.getD (st.2.length - 1 - j) 0)).sum
      (st.1 ++ [pred], st.2 ++ [0]))
    (w, m.residuals)).1.drop w.length

/-- Modelled from the spec: the impulse-response weights — ψ₀ = 1 and
`ψ_j = θ_j + Σ_{1 ≤ i ≤ min(j,p)} φ_i·ψ_{j−i}`; `psiList φ θ n` lists
ψ₀ … ψ_{n−1}. -/
def psiList (ar ma : List ℚ) : ℕ → List ℚ
  | 0 => []
  | n + 1 =>
    let prev := psiList ar ma n
    prev ++ [if n = 0 then 1 else
      ma.getD (n - 1) 0 +
      ((List.range ar.length).map
        (fun i => if i + 1 ≤ n then ar.getD i 0 * prev.getD (n - 1 - i) 0 else 0)).sum]

/-- Modelled from the spec: the forecast-error variance at step k
(1-indexed) — the cumulative sum of squared impulse-response weights times
the residual variance: `σ²·Σ_{j<k} ψ_j²`. -/
def varAt (m : FittedModel) (k : ℕ) : ℚ :=
  m.residualVariance * sumSq (psiList m.arCoefficients m.maCoefficients k)

/-- The variances for steps 1 .. h. -/
def varList (m : FittedModel) (h : ℕ) : List ℚ :=
  (List.range h).map fun k => varAt m (k + 1)

/-- Modelled from the spec: the ForecastResult of §3.  `pointForecast` is
on the original scale once the pipeline has integrated it; `ciVariances`
are the per-step forecast-error variances from which the symmetric bounds
are `point ± z·√variance`. -/
structure ForecastResult where
  horizon : ℕ
  pointForecast : List ℚ
  ciVariances : List ℚ
  deriving DecidableEq, Repr

/-- The 95% confidence quantile z = 1.96 of §4.4. -/
noncomputable def zQuantile : ℝ := 196 / 100

/-- Modelled from the spec: lower confidence bound at step k (1-indexed):
`point_k − z·√(variance_k)`. -/
noncomputable def lowerBound (r : ForecastResult) (k : ℕ) : ℝ :=
  (r.pointForecast.getD (k - 1) 0 : ℝ) -
    zQuantile * Real.sqrt (r.ciVariances.getD (k - 1) 0 : ℝ)

/-- Modelled from the spec: upper confidence bound at step k (1-indexed):
`point_k + z·√(variance_k)`. -/
noncomputable def upperBound (r : ForecastResult) (k : ℕ) : ℝ :=
  (r.pointForecast.getD (k - 1) 0 : ℝ) +
    zQuantile * Real.sqrt (r.ciVariances.getD (k - 1) 0 : ℝ)

/-- Modelled from the spec: the Forecaster — fails with
`InvalidHorizonError` on a non-positive horizon, otherwise produces the
differenced-scale forecasts and their variances. -/
def forecaster (m : FittedModel) (w : List ℚ) (h : ℕ) : Except Err ForecastResult :=
  if h = 0 then .error .invalidHorizon
  else .ok ⟨h, forecastDiff m w h, varList m h⟩

/-! ## ForecastPipeline (§4.5), modelled from the spec -/

/-- Modelled from the spec: the pipeline `forecast(series, order, horizon)`
— enforces `len(series) ≥ d + p + q + 2` (wrapping the violation as
`InsufficientDataError`), rejects the degenerate order `p + q = 0`, then
runs difference → estimate → forecast → integrate, dropping the `d`
anchor-level values that integration carries at the front. -/
def forecast (ts : TimeSeries) (o : ModelOrder) (h : ℕ) : Except Err ForecastResult :=
  if ts.values.length < o.d + o.p + o.q + 2 then .error .insufficientData
  else if o.p + o.q = 0 then .error .validation
  else
    match difference ts.values o.d with
    | .error e => .error e
    | .ok w =>
      match estimateParams w o.p o.q with
      | .error e => .error e
      | .ok m =>
        match forecaster m w h with
        | .error e => .error e
        | .ok r =>
          .ok { r with pointForecast :=
                  (integrate r.pointForecast (tailAnchors ts.values o.d)).drop o.d }

/-! ## Concrete evaluations of the estimator and the pipeline -/

theorem normalA_const0 : normalA [0, 0, 0, 0] 1 = Matrix.of ![![3, 0], ![0, 0]] := by
  funext i j
  fin_cases i <;> fin_cases j <;> norm_num [normalA, designEntry, List.range_succ]

theorem estimate_const0 : estimateParams [0, 0, 0, 0] 1 0 = .error .singular := by
  have h : (normalA [0, 0, 0, 0] 1).det = 0 := by
    rw [normalA_const0, Matrix.det_fin_two]
    norm_num
  simp [estimateParams, olsLagged, olsCoeffVec, h, Except.map]

theorem normalA_const0three : normalA [0, 0, 0] 1 = Matrix.of ![![2, 0], ![0, 0]] := by
  funext i j
  fin_cases i <;> fin_cases j <;> norm_num [normalA, designEntry, List.range_succ]

theorem estimate_const0three : estimateParams [0, 0, 0] 1 0 = .error .singular := by
  have h : (normalA [0, 0, 0] 1).det = 0 := by
    rw [normalA_const0three, Matrix.det_fin_two]
    norm_num
  simp [estimateParams, olsLagged, olsCoeffVec, h, Except.map]

theorem normalA_const4 : normalA [4, 4, 4, 4] 1 = Matrix.of ![![3, 12], ![12, 48]] := by
  funext i j
  fin_cases i <;> fin_cases j <;> norm_num [normalA, designEntry, List.range_succ]

theorem estimate_const4 : estimateParams [4, 4, 4, 4] 1 0 = .error .singular := by
  have h : (normalA [4, 4, 4, 4] 1).det = 0 := by
    rw [normalA_const4, Matrix.det_fin_two]
    norm_num
  simp [estimateParams, olsLagged, olsCoeffVec, h, Except.map]

theorem ols_zigzag : olsCoeffVec [1, 2, 1, 2, 1] 1 = .ok ![3, -1] := by
  have hA : normalA [1, 2, 1, 2, 1] 1 = Matrix.of ![![4, 6], ![6, 10]] := by
    funext i j
    fin_cases i <;> fin_cases j <;> norm_num [normalA, designEntry, List.range_succ]
  have hB : normalB [1, 2, 1, 2, 1] 1 = ![6, 8] := by
    funext i
    fin_cases i <;> norm_num [normalB, designEntry, List.range_succ]
  rw [olsCoeffVec, hA, hB]
  rw [if_neg (by rw [Matrix.det_fin_two]; norm_num)]
  congr 1
  funext i
  fin_cases i <;>
    norm_num [Pi.smul_apply, Matrix.cramer_apply, Matrix.det_succ_row_zero,
      Fin.sum_univ_succ, Matrix.updateColumn_apply, Matrix.submatrix_apply,
      Fin.succAbove, smul_eq_mul]

theorem resid_zigzag : residList [1, 2, 1, 2, 1] 3 [-1] [] = [0, 0, 0, 0, 0] := by
  norm_num [residList, List.range_succ, List.getD]

theorem estimate_zigzag :
    estimateParams [1, 2, 1, 2, 1] 1 0 =
      .ok ⟨⟨1, 0, 0⟩, [-1], [], 3, [0, 0, 0, 0, 0], 0⟩ := by
  have h1 : estimateParams [1, 2, 1, 2, 1] 1 0 =
      .ok (modelOfCoeffs [1, 2, 1, 2, 1] 1 0 3 [-1] []) := by
    simp [estimateParams, olsLagged, ols_zigzag, Except.map]
  rw [h1]
  unfold modelOfCoeffs
  rw [resid_zigzag]
  refine congrArg _ ?_
  refine congrArg _ ?_
  unfold residVarOf
  rw [resid_zigzag]
  norm_num [sumSq]

/-! ## Error classification of the estimator -/

theorem clsLoop_cases (w : List ℚ) (p : ℕ) (δ : ℚ) (fuel : ℕ) (v : List ℚ) :
    (∃ v', clsLoop w p δ fuel v = .ok v') ∨
    clsLoop w p δ fuel v = .error .nonConvergence := by
  induction fuel generalizing δ v with
  | zero => exact Or.inr rfl
  | succ fuel ih =>
    rw [clsLoop]
    split
    · exact Or.inl ⟨_, rfl⟩
    · exact ih _ _

/-- The estimator faithfully returns either a model, `SingularModelError`,
or `NonConvergenceError` — never any other error kind. -/
theorem estimateParams_cases (w : List ℚ) (p q : ℕ) :
    (∃ m, estimateParams w p q = .ok m) ∨
    estimateParams w p q = .error .singular ∨
    estimateParams w p q = .error .nonConvergence := by
  unfold estimateParams
  split
  · unfold olsLagged olsCoeffVec
    split
    · exact Or.inr (Or.inl rfl)
    · exact Or.inl ⟨_, rfl⟩
  · unfold iterCLS
    split
    · exact Or.inr (Or.inl rfl)
    · rcases clsLoop_cases w p 1 50 (List.replicate (1 + p + q) 0) with ⟨v', hv'⟩ | hv'
      · exact Or.inl ⟨_, by rw [hv']; rfl⟩
      · exact Or.inr (Or.inr (by rw [hv']; rfl))

/-! ## Pipeline evaluations -/

/-- The constant series `[50,50,50,50,50]` with order (1,1,0): the pipeline
fails with `SingularModelError`, whatever the horizon. -/
theorem forecast_const50 (h : ℕ) :
    forecast ⟨[0, 1, 2, 3, 4], [50, 50, 50, 50, 50]⟩ ⟨1, 1, 0⟩ h =
      .error .singular := by
  have hdiff : difference [50, 50, 50, 50, 50] 1 = .ok [0, 0, 0, 0] := by
    norm_num [difference, diffK, diffOnce]
  simp [forecast, hdiff, estimate_const0]

/-- The length-4 constant series `[50,50,50,50]` with order (1,1,0): length
is exactly `d + p + q + 2 = 4`, yet the pipeline fails with
`SingularModelError`. -/
theorem forecast_const50four (h : ℕ) :
    forecast ⟨[0, 1, 2, 3], [50, 50, 50, 50]⟩ ⟨1, 1, 0⟩ h =
      .error .singular := by
  have hdiff : difference [50, 50, 50, 50] 1 = .ok [0, 0, 0] := by
    norm_num [difference, diffK, diffOnce]
  simp [forecast, hdiff, estimate_const0three]

/-- The linear series `[100,104,108,112,116]` with order (1,1,0): the
differenced working series is the constant `[4,4,4,4]`, so the pipeline
fails with `SingularModelError`. -/
theorem forecast_linear100 (h : ℕ) :
    forecast ⟨[0, 1, 2, 3, 4], [100, 104, 108, 112, 116]⟩ ⟨1, 1, 0⟩ h =
      .error .singular := by
  have hdiff : difference [100, 104, 108, 112, 116] 1 = .ok [4, 4, 4, 4] := by
    norm_num [difference, diffK, diffOnce]
  simp [forecast, hdiff, estimate_const4]

/-- A successful end-to-end run: the zig-zag series fits exactly
(`intercept 3, φ₁ = −1`), giving point forecasts `[2, 1]` with zero
forecast-error variance. -/
theorem forecast_zigzag :
    forecast ⟨[0, 1, 2, 3, 4], [1, 2, 1, 2, 1]⟩ ⟨1, 0, 0⟩ 2 =
      .ok ⟨2, [2, 1], [0, 0]⟩ := by
  have hdiff : difference [1, 2, 1, 2, 1] 0 = .ok [1, 2, 1, 2, 1] := by
    norm_num [difference, diffK]
  have hfd : forecastDiff ⟨⟨1, 0, 0⟩, [-1], [], 3, [0, 0, 0, 0, 0], 0⟩
      [1, 2, 1, 2, 1] 2 = [2, 1] := by
    norm_num [forecastDiff, List.range_succ, List.getD]
  have hvl : varList ⟨⟨1, 0, 0⟩, [-1], [], 3, [0, 0, 0, 0, 0], 0⟩ 2 = [0, 0] := by
    norm_num [varList, varAt, List.range_succ]
  simp [forecast, hdiff, estimate_zigzag, forecaster, hfd, hvl, integrate, tailAnchors]

/-! ### Claim C3 -/

/-- C3 (counterexample): it is not the case that every valid series of
length exactly `d + p + q + 2` succeeds: the constant series
`[50,50,50,50]` with order (1,1,0) has length `1 + 1 + 0 + 2 = 4` yet
fails with `SingularModelError`. -/
theorem minimumData_cex :
    ¬ (∀ (p d q h : ℕ) (ts : TimeSeries), 0 < h → validTS ts →
        ts.values.length = d + p + q + 2 →
        ∃ r, forecast ts ⟨p, d, q⟩ h = .ok r) := by
  intro H
  obtain ⟨r, hr⟩ := H 1 1 0 1 ⟨[0, 1, 2, 3], [50, 50, 50, 50]⟩
    one_pos (by decide) (by decide)
  rw [forecast_const50four 1] at hr
  cases hr

/-- C3 (amended): for every order and every horizon, a series of length
exactly `d + p + q + 1` fails with `InsufficientDataError`; for a positive
horizon and length `d + p + q + 2` the minimum-data check passes —
`forecast` never fails with `InsufficientDataError` (though it may still
fail with `SingularModelError` or `NonConvergenceError` on degenerate
data). -/
theorem minimumData (p d q h : ℕ) (ts : TimeSeries) :
    (ts.values.length = d + p + q + 1 →
      forecast ts ⟨p, d, q⟩ h = .error .insufficientData) ∧
    (0 < h → ts.values.length = d + p + q + 2 →
      forecast ts ⟨p, d, q⟩ h ≠ .error .insufficientData) := by
  constructor
  · intro hlen
    unfold forecast
    dsimp only
    rw [if_pos (by omega)]
  · intro hh hlen
    unfold forecast
    dsimp only
    rw [if_neg (by omega)]
    split
    · simp
    · have hdiff : difference ts.values d = .ok (diffK ts.values d) := by
        unfold difference
        rw [if_neg (by omega)]
      rw [hdiff]
      dsimp only
      rcases estimateParams_cases (diffK ts.values d) p q with ⟨m, hm⟩ | hm | hm <;>
        rw [hm] <;> dsimp only
      · have hfc : forecaster m (diffK ts.values d) h =
            .ok ⟨h, forecastDiff m (diffK ts.values d) h,
                 varList m h⟩ := by
          unfold forecaster
          rw [if_neg (by omega)]
        rw [hfc]
        simp
      · simp
      · simp

/-- C3 witness: with order (1,0,0) and horizon 1, the valid series
`[1, 2]` of length `0 + 1 + 0 + 1 = 2` is rejected with
`InsufficientDataError`, while the valid series `[1, 2, 1]` of length
`0 + 1 + 0 + 2 = 3` is not rejected for insufficient data. -/
theorem minimumData_witness :
    forecast ⟨[0, 1], [1, 2]⟩ ⟨1, 0, 0⟩ 1 = .error .insufficientData ∧
    forecast ⟨[0, 1, 2], [1, 2, 1]⟩ ⟨1, 0, 0⟩ 1 ≠ .error .insufficientData :=
  ⟨(minimumData 1 0 0 1 ⟨[0, 1], [1, 2]⟩).1 (by decide),
   (minimumData 1 0 0 1 ⟨[0, 1, 2], [1, 2, 1]⟩).2 one_pos (by decide)⟩

/-! ### Claim C4 -/

/-- C4 (counterexample): on `[100,104,108,112,116]` with order (1,1,0) and
horizon 3 the pipeline does not return the point forecast
`[120,124,128]` — it fails with `SingularModelError`, because the constant
differenced series `[4,4,4,4]` makes the intercept and lag columns of the
lagged design matrix collinear. -/
theorem linearScenario_cex :
    forecast ⟨[0, 1, 2, 3, 4], [100, 104, 108, 112, 116]⟩ ⟨1, 1, 0⟩ 3 =
      .error .singular ∧
    ¬ ∃ r, forecast ⟨[0, 1, 2, 3, 4], [100, 104, 108, 112, 116]⟩ ⟨1, 1, 0⟩ 3 =
        .ok r ∧ r.pointForecast = [120, 124, 128] := by
  refine ⟨forecast_linear100 3, ?_⟩
  rintro ⟨r, hr, -⟩
  rw [forecast_linear100 3] at hr
  cases hr

/-- C4 (amended): the first-differenced working series of
`[100,104,108,112,116]` is indeed the constant `[4,4,4,4]`, but the
pipeline then fails with `SingularModelError` (constant working series ⇒
singular normal equations, §4.3/§7); integrating the differenced forecast
`[4,4,4]` from the tail anchors would indeed give `[120,124,128]`. -/
theorem linearScenario :
    difference [100, 104, 108, 112, 116] 1 = .ok [4, 4, 4, 4] ∧
    forecast ⟨[0, 1, 2, 3, 4], [100, 104, 108, 112, 116]⟩ ⟨1, 1, 0⟩ 3 =
      .error .singular ∧
    (integrate [4, 4, 4] (tailAnchors [100, 104, 108, 112, 116] 1)).drop 1 =
      [120, 124, 128] := by
  refine ⟨by norm_num [difference, diffK, diffOnce], forecast_linear100 3, ?_⟩
  norm_num [integrate, tailAnchors, intOnce, List.getLastD]

/-! ### Claim C7 -/

/-- C7: the constant series `[50,50,50,50,50]` with order (1,1,0)
differences to the all-zero working series, whose normal equations are
singular: the pipeline fails with `SingularModelError` (no division is
ever attempted — the singularity test precedes the solve), for every
horizon. -/
theorem constantSeries_singular (h : ℕ) :
    forecast ⟨[0, 1, 2, 3, 4], [50, 50, 50, 50, 50]⟩ ⟨1, 1, 0⟩ h =
      .error .singular ∧
    difference [50, 50, 50, 50, 50] 1 = .ok [0, 0, 0, 0] ∧
    (normalA [0, 0, 0, 0] 1).det = 0 :=
  ⟨forecast_const50 h, by norm_num [difference, diffK, diffOnce],
   by rw [normalA_const0, Matrix.det_fin_two]; norm_num⟩

/-! ### Claim C5 -/

theorem sumSq_nonneg (l : List ℚ) : 0 ≤ sumSq l := by
  unfold sumSq
  apply List.sum_nonneg
  intro x hx
  obtain ⟨y, -, rfl⟩ := List.mem_map.mp hx
  exact mul_self_nonneg y

theorem sumSq_append (l : List ℚ) (x : ℚ) : sumSq (l ++ [x]) = sumSq l + x * x := by
  simp [sumSq]

theorem residVarOf_nonneg (w : List ℚ) (c : ℚ) (ar ma : List ℚ) :
    0 ≤ residVarOf w c ar ma := by
  unfold residVarOf
  apply div_nonneg (sumSq_nonneg _)
  exact_mod_cast Nat.zero_le _

/-- Every model the estimator returns carries a non-negative residual
variance. -/
theorem estimateParams_var_nonneg (w : List ℚ) (p q : ℕ) (m : FittedModel)
    (hm : estimateParams w p q = .ok m) : 0 ≤ m.residualVariance := by
  unfold estimateParams at hm
  split at hm
  · unfold olsLagged at hm
    cases hols : olsCoeffVec w p with
    | error e => rw [hols] at hm; cases hm
    | ok β =>
      rw [hols] at hm
      cases hm
      exact residVarOf_nonneg _ _ _ _
  · unfold iterCLS at hm
    split at hm
    · cases hm
    · cases hcls : clsLoop w p 1 50 (List.replicate (1 + p + q) 0) with
      | error e => rw [hcls] at hm; cases hm
      | ok v =>
        rw [hcls] at hm
        cases hm
        exact residVarOf_nonneg _ _ _ _

theorem varAt_mono (m : FittedModel) (hv : 0 ≤ m.residualVariance) (k : ℕ) :
    varAt m k ≤ varAt m (k + 1) := by
  unfold varAt
  apply mul_le_mul_of_nonneg_left _ hv
  obtain ⟨x, hx⟩ : ∃ x, psiList m.arCoefficients m.maCoefficients (k + 1) =
      psiList m.arCoefficients m.maCoefficients k ++ [x] := ⟨_, rfl⟩
  rw [hx, sumSq_append]
  nlinarith [mul_self_nonneg x]

theorem varList_getD (m : FittedModel) (h i : ℕ) (hi : i < h) :
    (varList m h).getD i 0 = varAt m (i + 1) := by
  simp [varList, List.getD, List.getElem?_map, List.getElem?_range hi]

/-- Inversion of a successful pipeline run: the result's variances come
from a model that the estimator returned, and its horizon is the request. -/
theorem forecast_ok_shape (ts : TimeSeries) (o : ModelOrder) (h : ℕ)
    (r : ForecastResult) (hr : forecast ts o h = .ok r) :
    ∃ w m, estimateParams w o.p o.q = .ok m ∧ r.horizon = h ∧
      r.ciVariances = varList m h := by
  unfold forecast at hr
  split at hr
  · cases hr
  · split at hr
    · cases hr
    · cases hdiff : difference ts.values o.d with
      | error e => rw [hdiff] at hr; cases hr
      | ok w =>
        rw [hdiff] at hr
        dsimp only at hr
        cases hest : estimateParams w o.p o.q with
        | error e => rw [hest] at hr; cases hr
        | ok m =>
          rw [hest] at hr
          dsimp only at hr
          have hfc : forecaster m w h = if h = 0 then .error .invalidHorizon
              else .ok ⟨h, forecastDiff m w h, varList m h⟩ := rfl
          rw [hfc] at hr
          by_cases hh : h = 0
          · rw [if_pos hh] at hr
            dsimp only at hr
            cases hr
          · rw [if_neg hh] at hr
            dsimp only at hr
            cases hr
            exact ⟨w, m, hest, rfl, rfl⟩

/-- C5: for every ForecastResult the pipeline produces, the
confidence-interval width `upperBound k − lowerBound k` is non-decreasing
in k across the horizon.  (Stationarity is not even needed: the cumulative
sums of squared impulse-response weights are monotone for any fitted
model.) -/
theorem ciWidth_mono (ts : TimeSeries) (o : ModelOrder) (h : ℕ)
    (r : ForecastResult) (hr : forecast ts o h = .ok r) (k : ℕ)
    (hk1 : 1 ≤ k) (hk2 : k < r.horizon) :
    upperBound r k - lowerBound r k ≤
      upperBound r (k + 1) - lowerBound r (k + 1) := by
  obtain ⟨w, m, hm, hhor, hvar⟩ := forecast_ok_shape ts o h r hr
  have hσ := estimateParams_var_nonneg _ _ _ _ hm
  have hkh : k < h := hhor ▸ hk2
  have e1 : r.ciVariances.getD (k - 1) 0 = varAt m k := by
    rw [hvar, varList_getD m h (k - 1) (by omega)]
    congr 1
    omega
  have e2 : r.ciVariances.getD (k + 1 - 1) 0 = varAt m (k + 1) := by
    rw [hvar]
    exact varList_getD m h k (by omega)
  have w1 : upperBound r k - lowerBound r k =
      2 * zQuantile * Real.sqrt ((r.ciVariances.getD (k - 1) 0 : ℚ) : ℝ) := by
    unfold upperBound lowerBound
    ring
  have w2 : upperBound r (k + 1) - lowerBound r (k + 1) =
      2 * zQuantile * Real.sqrt ((r.ciVariances.getD (k + 1 - 1) 0 : ℚ) : ℝ) := by
    unfold upperBound lowerBound
    ring
  rw [w1, w2, e1, e2]
  have hs : Real.sqrt ((varAt m k : ℚ) : ℝ) ≤
      Real.sqrt ((varAt m (k + 1) : ℚ) : ℝ) :=
    Real.sqrt_le_sqrt (by exact_mod_cast varAt_mono m hσ k)
  exact mul_le_mul_of_nonneg_left hs (by norm_num [zQuantile])

/-- C5 witness: the successful zig-zag run of `forecast_zigzag`, at k = 1
of horizon 2. -/
theorem ciWidth_mono_witness :
    forecast ⟨[0, 1, 2, 3, 4], [1, 2, 1, 2, 1]⟩ ⟨1, 0, 0⟩ 2 =
      .ok ⟨2, [2, 1], [0, 0]⟩ ∧
    upperBound ⟨2, [2, 1], [0, 0]⟩ 1 - lowerBound ⟨2, [2, 1], [0, 0]⟩ 1 ≤
      upperBound ⟨2, [2, 1], [0, 0]⟩ 2 - lowerBound ⟨2, [2, 1], [0, 0]⟩ 2 :=
  ⟨forecast_zigzag,
   ciWidth_mono _ _ _ _ forecast_zigzag 1 le_rfl (by decide)⟩

/-! ### Claim C6 -/

/-- C6: the estimator special-cases q = 0 to the direct closed-form
ordinary-least-squares solve on the lagged design matrix (no iterative
optimization on this path); the normal equations it solves are exactly
`XᵀX β = Xᵀy` for that design matrix, and any returned coefficient vector
satisfies them. -/
theorem olsExactness (w : List ℚ) (p : ℕ) :
    estimateParams w p 0 = olsLagged w p ∧
    normalA w p = (designMatrix w p).transpose * designMatrix w p ∧
    normalB w p = (designMatrix w p).transpose.mulVec (targetVec w p) ∧
    ∀ β, olsCoeffVec w p = .ok β → (normalA w p).mulVec β = normalB w p := by
  refine ⟨by simp [estimateParams], normalA_eq_gram w p, normalB_eq_gram w p, ?_⟩
  intro β hβ
  unfold olsCoeffVec at hβ
  split at hβ
  · cases hβ
  · rename_i hdet
    cases hβ
    rw [Matrix.mulVec_smul, Matrix.mulVec_cramer, smul_smul,
      inv_mul_cancel₀ hdet, one_smul]

/-- C6 witness: on the zig-zag working series with p = 1, the estimator's
closed-form solution `(intercept, φ₁) = (3, −1)` satisfies the normal
equations. -/
theorem olsExactness_witness :
    olsCoeffVec [1, 2, 1, 2, 1] 1 = .ok ![3, -1] ∧
    (normalA [1, 2, 1, 2, 1] 1).mulVec ![3, -1] = normalB [1, 2, 1, 2, 1] 1 :=
  ⟨ols_zigzag, (olsExactness [1, 2, 1, 2, 1] 1).2.2.2 ![3, -1] ols_zigzag⟩

/-! ## The repository source: `app.py` (resume screening)

Python strings are embedded as lists of code points (`List ℕ`); `str`
converts a Lean string literal for readability. -/

def str (s : String) : List ℕ := s.toList.map Char.toNat

/-- `text.lower()` on a code point, as relevant to `clean_text`: ASCII
uppercase (65–90) shifts to lowercase (+32), everything else unchanged.
(Non-ASCII case mappings are immaterial: the next step removes every
non-ASCII character.) -/
def lowerCode (n : ℕ) : ℕ :=
  if 65 ≤ n ∧ n ≤ 90 then n + 32 else n

/-- The character class kept by `re.sub(r'[^a-zA-Z ]', '', text)`:
ASCII letters and the space (32). -/
def keepCode (n : ℕ) : Bool :=
  decide ((65 ≤ n ∧ n ≤ 90) ∨ (97 ≤ n ∧ n ≤ 122) ∨ n = 32)

/-- `text.split()` : maximal nonempty runs separated by whitespace (after
the regex, the only whitespace left is the space). -/
def wordsOf : List ℕ → List (List ℕ)
  | [] => []
  | c :: rest =>
    if c = 32 then wordsOf rest
    else (c :: rest.takeWhile (fun x => x != 32)) ::
      wordsOf (rest.dropWhile (fun x => x != 32))
termination_by l => l.length
decreasing_by
  · simp only [List.length_cons]
    omega
  · simp only [List.length_cons]
    have := (List.dropWhile_sublist (l := rest) (fun x => x != 32)).length_le
    omega

/-- `" ".join(words)`. -/
def joinWords : List (List ℕ) → List ℕ
  | [] => []
  | [w] => w
  | w :: w2 :: ws => w ++ 32 :: joinWords (w2 :: ws)

/-- `stopwords.words('english')` (nltk).  Contraction forms containing an
apostrophe are omitted: after the regex step no word can contain an
apostrophe, so those entries can never match and their omission is
observationally equivalent inside `clean_text`. -/
def englishStopwords : List (List ℕ) :=
  ["i", "me", "my", "myself", "we", "our", "ours", "ourselves", "you",
   "your", "yours", "yourself", "yourselves", "he", "him", "his",
   "himself", "she", "her", "hers", "herself", "it", "its", "itself",
   "they", "them", "their", "theirs", "themselves", "what", "which",
   "who", "whom", "this", "that", "these", "those", "am", "is", "are",
   "was", "were", "be", "been", "being", "have", "has", "had", "having",
   "do", "does", "did", "doing", "a", "an", "the", "and", "but", "if",
   "or", "because", "as", "until", "while", "of", "at", "by", "for",
   "with", "about", "against", "between", "into", "through", "during",
   "before", "after", "above", "below", "to", "from", "up", "down", "in",
   "out", "on", "off", "over", "under", "again", "further", "then",
   "once", "here", "there", "when", "where", "why", "how", "all", "any",
   "both", "each", "few", "more", "most", "other", "some", "such", "no",
   "nor", "not", "only", "own", "same", "so", "than", "too", "very", "s",
   "t", "can", "will", "just", "don", "should", "now", "d", "ll", "m",
   "o", "re", "ve", "y", "ain", "aren", "couldn", "didn", "doesn",
   "hadn", "hasn", "haven", "isn", "ma", "mightn", "mustn", "needn",
   "shan", "shouldn", "wasn", "weren", "won", "wouldn"].map str

/-- `clean_text` from app.py: lowercase, strip every character outside
`[a-zA-Z ]`, split on whitespace, drop English stopwords, re-join with
single spaces. -/
def cleanText (s : List ℕ) : List ℕ :=
  joinWords ((wordsOf ((s.map lowerCode).filter keepCode)).filter
    (fun w => decide (w ∉ englishStopwords)))

/-! ### Word-splitting lemmas -/

theorem takeWhile_no_space {r : List ℕ} (h : 32 ∉ r) :
    r.takeWhile (fun x => x != 32) = r := by
  induction r with
  | nil => rfl
  | cons a t ih =>
    have ha : a ≠ 32 := fun e => h (e ▸ List.mem_cons_self a t)
    rw [List.takeWhile_cons, if_pos (by simpa using ha),
      ih (fun hm => h (List.mem_cons_of_mem a hm))]

theorem dropWhile_no_space {r : List ℕ} (h : 32 ∉ r) :
    r.dropWhile (fun x => x != 32) = [] := by
  induction r with
  | nil => rfl
  | cons a t ih =>
    have ha : a ≠ 32 := fun e => h (e ▸ List.mem_cons_self a t)
    rw [List.dropWhile_cons, if_pos (by simpa using ha)]
    exact ih (fun hm => h (List.mem_cons_of_mem a hm))

theorem takeWhile_append_space {r t : List ℕ} (h : 32 ∉ r) :
    (r ++ 32 :: t).takeWhile (fun x => x != 32) = r := by
  induction r with
  | nil => simp [List.takeWhile_cons]
  | cons a s ih =>
    have ha : a ≠ 32 := fun e => h (e ▸ List.mem_cons_self a s)
    rw [List.cons_append, List.takeWhile_cons, if_pos (by simpa using ha),
      ih (fun hm => h (List.mem_cons_of_mem a hm))]

theorem dropWhile_append_space {r t : List ℕ} (h : 32 ∉ r) :
    (r ++ 32 :: t).dropWhile (fun x => x != 32) = 32 :: t := by
  induction r with
  | nil => simp [List.dropWhile_cons]
  | cons a s ih =>
    have ha : a ≠ 32 := fun e => h (e ▸ List.mem_cons_self a s)
    rw [List.cons_append, List.dropWhile_cons, if_pos (by simpa using ha)]
    exact ih (fun hm => h (List.mem_cons_of_mem a hm))

theorem wordsOf_single {w : List ℕ} (hne : w ≠ []) (hsp : 32 ∉ w) :
    wordsOf w = [w] := by
  cases w with
  | nil => exact absurd rfl hne
  | cons c r =>
    have hc : c ≠ 32 := fun e => hsp (e ▸ List.mem_cons_self c r)
    have hr : 32 ∉ r := fun hm => hsp (List.mem_cons_of_mem c hm)
    rw [wordsOf, if_neg hc, takeWhile_no_space hr, dropWhile_no_space hr,
      wordsOf]

theorem wordsOf_word_append {w t : List ℕ} (hne : w ≠ []) (hsp : 32 ∉ w) :
    wordsOf (w ++ 32 :: t) = w :: wordsOf t := by
  cases w with
  | nil => exact absurd rfl hne
  | cons c r =>
    have hc : c ≠ 32 := fun e => hsp (e ▸ List.mem_cons_self c r)
    have hr : 32 ∉ r := fun hm => hsp (List.mem_cons_of_mem c hm)
    rw [List.cons_append, wordsOf, if_neg hc, takeWhile_append_space hr,
      dropWhile_append_space hr, wordsOf, if_pos rfl]

/-- Splitting the space-joined words recovers them exactly, provided each
word is nonempty and space-free. -/
theorem wordsOf_joinWords (ws : List (List ℕ))
    (h : ∀ w ∈ ws, w ≠ [] ∧ 32 ∉ w) : wordsOf (joinWords ws) = ws := by
  induction ws with
  | nil => simp [joinWords, wordsOf]
  | cons w ws ih =>
    cases ws with
    | nil =>
      have hw := h w (List.mem_cons_self w [])
      rw [joinWords, wordsOf_single hw.1 hw.2]
    | cons w2 rest =>
      have hw := h w (List.mem_cons_self w _)
      rw [joinWords, wordsOf_word_append hw.1 hw.2,
        ih (fun u hu => h u (List.mem_cons_of_mem w hu))]

/-- Every word produced by splitting is nonempty, space-free, and drawn
from the characters of the input. -/
theorem mem_wordsOf_aux :
    ∀ (n : ℕ) (l : List ℕ), l.length ≤ n → ∀ u ∈ wordsOf l,
      u ≠ [] ∧ 32 ∉ u ∧ ∀ c ∈ u, c ∈ l := by
  intro n
  induction n with
  | zero =>
    intro l hl u hu
    cases l with
    | nil => simp [wordsOf] at hu
    | cons c r => simp at hl
  | succ n ih =>
    intro l hl u hu
    cases l with
    | nil => simp [wordsOf] at hu
    | cons c rest =>
      rw [wordsOf] at hu
      by_cases hc : c = 32
      · rw [if_pos hc] at hu
        obtain ⟨h1, h2, h3⟩ := ih rest (by simp at hl; omega) u hu
        exact ⟨h1, h2, fun d hd => List.mem_cons_of_mem c (h3 d hd)⟩
      · rw [if_neg hc] at hu
        rcases List.mem_cons.mp hu with rfl | hu2
        · refine ⟨by simp, ?_, ?_⟩
          · intro hsp
            rcases List.mem_cons.mp hsp with e | hsp2
            · exact hc e.symm
            · have := List.mem_takeWhile_imp hsp2
              simp at this
          · intro d hd
            rcases List.mem_cons.mp hd with rfl | hd2
            · exact List.mem_cons_self d rest
            · exact List.mem_cons_of_mem c
                ((List.takeWhile_sublist _).subset hd2)
        · have hlen := (List.dropWhile_sublist (l := rest) (fun x => x != 32)).length_le
          obtain ⟨h1, h2, h3⟩ := ih (rest.dropWhile (fun x => x != 32))
            (by simp at hl; omega) u hu2
          exact ⟨h1, h2, fun d hd => List.mem_cons_of_mem c
            ((List.dropWhile_sublist _).subset (h3 d hd))⟩

theorem mem_wordsOf {l u : List ℕ} (hu : u ∈ wordsOf l) :
    u ≠ [] ∧ 32 ∉ u ∧ ∀ c ∈ u, c ∈ l :=
  mem_wordsOf_aux l.length l le_rfl u hu

/-- Every character of the joined words is a space or a word character. -/
theorem mem_joinWords :
    ∀ (ws : List (List ℕ)) (c : ℕ), c ∈ joinWords ws →
      c = 32 ∨ ∃ w ∈ ws, c ∈ w := by
  intro ws
  induction ws with
  | nil => intro c hc; simp [joinWords] at hc
  | cons w ws ih =>
    cases ws with
    | nil =>
      intro c hc
      exact Or.inr ⟨w, List.mem_cons_self w [], hc⟩
    | cons w2 rest =>
      intro c hc
      rw [joinWords] at hc
      rcases List.mem_append.mp hc with h1 | h2
      · exact Or.inr ⟨w, List.mem_cons_self w _, h1⟩
      · rcases List.mem_cons.mp h2 with rfl | h3
        · exact Or.inl rfl
        · rcases ih c h3 with h | ⟨u, hu, hcu⟩
          · exact Or.inl h
          · exact Or.inr ⟨u, List.mem_cons_of_mem w hu, hcu⟩

theorem lowerCode_idem (n : ℕ) : lowerCode (lowerCode n) = lowerCode n := by
  by_cases h : 65 ≤ n ∧ n ≤ 90
  · have h1 : lowerCode n = n + 32 := by rw [lowerCode, if_pos h]
    have h2 : lowerCode (n + 32) = n + 32 := by
      rw [lowerCode, if_neg (by omega)]
    rw [h1, h2]
  · have h1 : lowerCode n = n := by rw [lowerCode, if_neg h]
    rw [h1, h1]

theorem map_fix {f : ℕ → ℕ} {l : List ℕ} (h : ∀ x ∈ l, f x = x) :
    l.map f = l := by
  rw [List.map_congr_left h]
  exact List.map_id l

/-! ### Claim C8 -/

/-- C8: `clean_text` is idempotent — its output consists only of lowercase
ASCII letters in nonempty words separated by single spaces with stopwords
removed, a form every one of its steps leaves fixed. -/
theorem cleanText_idem (s : List ℕ) : cleanText (cleanText s) = cleanText s := by
  unfold cleanText
  have hword : ∀ w ∈ (wordsOf ((s.map lowerCode).filter keepCode)).filter
      (fun w => decide (w ∉ englishStopwords)),
      w ≠ [] ∧ 32 ∉ w ∧ ∀ c ∈ w, c ∈ (s.map lowerCode).filter keepCode :=
    fun w hw => mem_wordsOf (List.mem_of_mem_filter hw)
  have hchar : ∀ c ∈ joinWords ((wordsOf ((s.map lowerCode).filter keepCode)).filter
      (fun w => decide (w ∉ englishStopwords))),
      lowerCode c = c ∧ keepCode c = true := by
    intro c hc
    rcases mem_joinWords _ c hc with rfl | ⟨w, hw, hcw⟩
    · exact ⟨by rw [lowerCode, if_neg (by omega)], by decide⟩
    · have hcs1 := (hword w hw).2.2 c hcw
      have hkeep := List.of_mem_filter hcs1
      obtain ⟨c0, -, rfl⟩ := List.mem_map.mp (List.mem_of_mem_filter hcs1)
      exact ⟨lowerCode_idem c0, hkeep⟩
  rw [map_fix (fun c hc => (hchar c hc).1),
    List.filter_eq_self.mpr (fun c hc => (hchar c hc).2),
    wordsOf_joinWords _ (fun w hw => ⟨(hword w hw).1, (hword w hw).2.1⟩),
    List.filter_eq_self.mpr (fun w hw => (List.mem_filter.mp hw).2)]

/-! ### Claim C9 -/

/-- Dot product of two rows. -/
def dot (u v : List ℚ) : ℚ := (List.zipWith (fun a b => a * b) u v).sum

/-- sklearn's cosine similarity between two rows. -/
noncomputable def cosineSim (u v : List ℚ) : ℝ :=
  ((dot u v : ℚ) : ℝ) /
    (Real.sqrt ((dot u u : ℚ) : ℝ) * Real.sqrt ((dot v v : ℚ) : ℝ))

/-- `calculate_similarity` from app.py: append the job description to the
resumes, vectorize the whole corpus, and compare every row but the last
(`tfidf_matrix[:-1]`) against the last row (`tfidf_matrix[-1]`), flattened.
`TfidfVectorizer` is an external library call and is therefore a parameter:
a map from the document corpus to its row matrix. -/
noncomputable def calculateSimilarity
    (vectorize : List (List ℕ) → List (List ℚ))
    (resumeTexts : List (List ℕ)) (jdText : List ℕ) : List ℝ :=
  (vectorize (resumeTexts ++ [jdText])).dropLast.map
    (fun row => cosineSim row ((vectorize (resumeTexts ++ [jdText])).getLastD []))

theorem getD_map_real (f : List ℚ → ℝ) (l : List (List ℚ)) (i : ℕ)
    (hi : i < l.length) : (l.map f).getD i 0 = f (l.getD i []) := by
  rw [List.getD_eq_getElem?_getD, List.getD_eq_getElem?_getD,
    List.getElem?_map, List.getElem?_eq_getElem hi]
  rfl

theorem getD_dropLast (l : List (List ℚ)) (i : ℕ) (hi : i + 1 < l.length) :
    l.dropLast.getD i [] = l.getD i [] := by
  have h1 : i < l.dropLast.length := by rw [List.length_dropLast]; omega
  have h2 : i < l.length := by omega
  rw [List.getD_eq_getElem?_getD, List.getD_eq_getElem?_getD,
    List.getElem?_eq_getElem h1, List.getElem?_eq_getElem h2]
  simp [List.getElem_dropLast]

/-- C9: provided the vectorizer produces one row per document,
`calculate_similarity` returns exactly one score per resume — a flat list
of length `len(resume_texts)` — and the i-th score is the cosine
similarity of row i against the last row (the job description). -/
theorem calculateSimilarity_spec
    (vectorize : List (List ℕ) → List (List ℚ))
    (resumeTexts : List (List ℕ)) (jdText : List ℕ)
    (hne : resumeTexts ≠ [])
    (hrows : (vectorize (resumeTexts ++ [jdText])).length =
      resumeTexts.length + 1) :
    (calculateSimilarity vectorize resumeTexts jdText).length =
      resumeTexts.length ∧
    ∀ i, i < resumeTexts.length →
      (calculateSimilarity vectorize resumeTexts jdText).getD i 0 =
        cosineSim ((vectorize (resumeTexts ++ [jdText])).getD i [])
          ((vectorize (resumeTexts ++ [jdText])).getLastD []) := by
  constructor
  · simp [calculateSimilarity, List.length_dropLast, hrows]
  · intro i hi
    have hlt : i < (vectorize (resumeTexts ++ [jdText])).dropLast.length := by
      rw [List.length_dropLast, hrows]
      omega
    rw [calculateSimilarity, getD_map_real _ _ _ hlt,
      getD_dropLast _ _ (by rw [hrows]; omega)]

/-- C9 witness: a one-resume corpus with the constant one-row-per-document
vectorizer. -/
theorem calculateSimilarity_spec_witness :
    (calculateSimilarity (fun ds => ds.map (fun d => [1]))
      [str "resume"] (str "job")).length = 1 ∧
    (calculateSimilarity (fun ds => ds.map (fun d => [1]))
        [str "resume"] (str "job")).getD 0 0 =
      cosineSim (((([str "resume"] ++ [str "job"]).map
          (fun d => ([1] : List ℚ)))).getD 0 [])
        (((([str "resume"] ++ [str "job"]).map
          (fun d => ([1] : List ℚ)))).getLastD []) :=
  ⟨(calculateSimilarity_spec _ _ _ (by simp) (by simp)).1,
   (calculateSimilarity_spec _ _ _ (by simp) (by simp)).2 0 (by simp)⟩

/-! ### Claim C10 -/

/-- The displayed result list of app.py:
`sorted(zip(resume_names, scores), key=lambda x: x[1], reverse=True)` — a
stable sort of the (name, score) pairs by descending score. -/
def screeningResults (resumeNames : List String) (scores : List ℚ) :
    List (String × ℚ) :=
  (resumeNames.zip scores).mergeSort (fun a b => decide (b.2 ≤ a.2))

/-- C10: adjacent displayed results are in non-increasing score order. -/
theorem screeningResults_sorted (resumeNames : List String)
    (scores : List ℚ) (i : ℕ)
    (hi : i + 1 < (screeningResults resumeNames scores).length) :
    ((screeningResults resumeNames scores).getD (i + 1) ("", 0)).2 ≤
      ((screeningResults resumeNames scores).getD i ("", 0)).2 := by
  have hp : (screeningResults resumeNames scores).Pairwise
      (fun a b => decide (b.2 ≤ a.2) = true) := by
    apply List.sorted_mergeSort
    · intro a b c hab hbc
      simp only [decide_eq_true_eq] at hab hbc ⊢
      exact le_trans hbc hab
    · intro a b
      simp only [Bool.or_eq_true, decide_eq_true_eq]
      exact le_total b.2 a.2
  have h2 := List.pairwise_iff_getElem.mp hp i (i + 1) (by omega) hi
    (by omega)
  rw [List.getD_eq_getElem?_getD, List.getD_eq_getElem?_getD,
    List.getElem?_eq_getElem hi, List.getElem?_eq_getElem (by omega)]
  simpa using h2

/-- C10 witness: two resumes with scores 1/2 and 3/4 — the displayed order
is non-increasing. -/
theorem screeningResults_sorted_witness :
    ((screeningResults ["alice", "bob"] [1/2, 3/4]).getD 1 ("", 0)).2 ≤
      ((screeningResults ["alice", "bob"] [1/2, 3/4]).getD 0 ("", 0)).2 :=
  screeningResults_sorted ["alice", "bob"] [1/2, 3/4] 0
    (by simp [screeningResults])

end SalesApp
